import Mathlib

/-!
Verification development for the gostream library (stream.go, the
Stream/Finisher/parallel implementation).

The embedding has two layers, both derived from the Go source:

* A list layer: a materialized finite source iterator is a `List α`
  (the element type `α` stands for Go's dynamic `interface{}` type), and a
  per-element or whole-sequence transform `func(*goiter.Iter) *goiter.Iter`
  is denoted by its effect on the produced element sequence, a function
  `List α → List α`.  Each denotation below is transcribed from the pull
  loop of the corresponding Go closure.

* A pull layer: a (possibly infinite) source iterator is a function
  `Nat → Option α` giving the result of the k-th `next()` call, `some v`
  for `(v, true)` and `none` for `(_, false)`; consumers are written as
  fuel-indexed loops.  This layer is used for the `Iterate` constructor,
  whose source never reports exhaustion, and for the termination /
  pull-count facts about `Limit` and `Count`.

The external `goiter` and `gooptional` packages are out of scope for the
library (spec section 1); their few entry points used here
(`Of/OfElements/NewIter`, `SplitIntoRows/SplitIntoColumns`,
`FlattenArraySlice`, `gooptional.Of`) are modelled by the evident list
functions, and `sort.Slice` is modelled by a deterministic comparison
sort (insertion sort; the spec asks for a deterministic/stable sort).
-/

namespace GoStream

universe u v

/-- ParallelFlags indicates whether numItems is the number of goroutines or
the number of items each goroutine processes (stream.go). -/
inductive ParallelFlags : Type where
  | NumberOfGoroutines : ParallelFlags
  | NumberOfItemsPerGoroutine : ParallelFlags
deriving DecidableEq

export ParallelFlags (NumberOfGoroutines NumberOfItemsPerGoroutine)

/-- DefaultNumberOfParallelItems is the default number of items when
executing transforms in parallel (stream.go). -/
def DefaultNumberOfParallelItems : Nat := 50

/-- Model of gostream.compose: composes two transforms f1 and f2 into
f2 after f1; if f1 is nil (`none`), the composition degenerates to f2.
The nil check / panic on f2 is unrepresentable here because the second
argument is a total function. -/
def compose {α : Type u} (f1 : Option (List α → List α)) (f2 : List α → List α) :
    List α → List α :=
  match f1 with
  | none => f2
  | some g => fun it => f2 (g it)

/-- Denotation of the Stream.Filter closure: loop `it.Next()` until the
predicate holds, yielding the matching element (stream.go). -/
def filterT {α : Type u} (f : α → Bool) : List α → List α
  | [] => []
  | x :: xs => if f x then x :: filterT f xs else filterT f xs

/-- Denotation of the Stream.Map closure: each `next()` yields `f` of the
next upstream element (stream.go).  Go's `interface{}` is one dynamic
type, so the model keeps a single element type. -/
def mapT {α : Type u} (f : α → α) : List α → List α
  | [] => []
  | x :: xs => f x :: mapT f xs

/-- Denotation of the Stream.Peek closure: each `next()` yields the
upstream element unchanged after invoking the side-effecting observer;
the side effect does not affect the element sequence (stream.go). -/
def peekT {α : Type u} : List α → List α
  | [] => []
  | x :: xs => x :: peekT xs

/-- Denotation of the Finisher.Skip closure: on the first pull, call
`it.Next()` n times, yielding nothing if the upstream exhausts first;
afterwards pass elements through (stream.go). -/
def skipT {α : Type u} : Nat → List α → List α
  | 0, l => l
  | _ + 1, [] => []
  | n + 1, _ :: xs => skipT n xs

/-- Denotation of the Finisher.Limit closure: yield upstream elements
while `elementsRead` is below n, reporting exhaustion as soon as the
count reaches n (stream.go). -/
def limitT {α : Type u} : Nat → List α → List α
  | 0, _ => []
  | _ + 1, [] => []
  | n + 1, x :: xs => x :: limitT n xs

/-- Denotation of the stateful filter installed by Finisher.Distinct:
the `alreadyRead` set is the `seen` argument; an unseen element is
recorded and kept, a seen element is dropped (stream.go). -/
def distinctFrom {α : Type u} [DecidableEq α] (seen : List α) : List α → List α
  | [] => []
  | x :: xs =>
    if x ∈ seen then distinctFrom seen xs
    else x :: distinctFrom (x :: seen) xs

/-- Denotation of the stateful filter installed by Finisher.Duplicates:
an unseen element is recorded and dropped, a seen element is kept
(stream.go). -/
def duplicatesFrom {α : Type u} [DecidableEq α] (seen : List α) : List α → List α
  | [] => []
  | x :: xs =>
    if x ∈ seen then x :: duplicatesFrom seen xs
    else duplicatesFrom (x :: seen) xs

/-- Insertion step of the model of sort.Slice: place x before the first
element y with c x y. -/
def insertB {α : Type u} (c : α → α → Bool) (x : α) : List α → List α
  | [] => [x]
  | y :: ys => if c x y then x :: y :: ys else y :: insertB c x ys

/-- Model of `sort.Slice(sorted, less)` used by Finisher.Sorted: a
deterministic comparison sort parameterized by the boolean comparator. -/
def sortB {α : Type u} (c : α → α → Bool) : List α → List α
  | [] => []
  | x :: xs => insertB c x (sortB c xs)

/-- Model of goiter.FlattenArraySlice on one level of nesting:
concatenate the rows in index order (doParallel step 5). -/
def flattenArraySlice {α : Type u} : List (List α) → List α
  | [] => []
  | r :: rs => r ++ flattenArraySlice rs

/-- Cut a list into contiguous chunks, each of the given size (the last
one possibly shorter); every chunk takes at least one element, so the
function is total for every size argument. -/
def chunksOf {α : Type u} (sz : Nat) : List α → List (List α)
  | [] => []
  | x :: xs => (x :: xs.take (sz - 1)) :: chunksOf sz (xs.drop (sz - 1))
termination_by l => l.length
decreasing_by
  simp only [List.length_cons]
  exact Nat.lt_succ_of_le (List.length_drop _ _ ▸ Nat.sub_le _ _)

/-- Model of goiter SplitIntoRows: numItems is the desired number of
columns (items per row); the number of rows is derived. -/
def splitIntoRows {α : Type u} (n : Nat) (l : List α) : List (List α) :=
  chunksOf n l

/-- Model of goiter SplitIntoColumns: numItems is the desired number of
rows; the number of columns per row is derived as the ceiling of
length / n. -/
def splitIntoColumns {α : Type u} (n : Nat) (l : List α) : List (List α) :=
  chunksOf ((l.length + n - 1) / n) l

/-- Model of doParallel (stream.go): choose the partition count, split
the materialized source, apply the per-element transform to every row
(one goroutine per row in Go; each goroutine writes only its own slot of
splitData, so the outcome is the index-ordered list of row results
independent of scheduling), flatten in row order, then apply the
finisher transform once.  The transforms passed here by the correct
callers are the stateless Stream closures, so they are pure list
functions. -/
def doParallel {α : Type u} (source : List α)
    (transform : Option (List α → List α)) (finisher : Option (List α → List α))
    (numItems : Nat) (flag : ParallelFlags) : List α :=
  let n := if numItems > 0 then numItems else DefaultNumberOfParallelItems
  let flatData :=
    match transform with
    | none => source
    | some t =>
      let splitData :=
        if flag = NumberOfGoroutines then splitIntoColumns n source
        else splitIntoRows n source
      flattenArraySlice (splitData.map t)
  match finisher with
  | none => flatData
  | some f => f flatData

/-- Model of gostream.Stream: a materialized finite source, the composed
per-element transform (nil = `none`), and the finite flag (stream.go).
The `Iterate` constructor, whose source is not finite, lives in the pull
layer below. -/
structure Stream (α : Type u) : Type u where
  source : List α
  transform : Option (List α → List α)
  finite : Bool

/-- Model of gostream.construct: common constructor body. -/
def construct {α : Type u} (source : List α) (finite : Bool) : Stream α :=
  { source := source, transform := none, finite := finite }

/-- Model of gostream.Of: a stream of hard-coded values, finite. -/
def Of {α : Type u} (items : List α) : Stream α :=
  construct items true

namespace Stream

/-- Model of Stream.Transform: compose the current transform with a new
one; source and finite flag are preserved (stream.go). -/
def Transform {α : Type u} (s : Stream α) (t : List α → List α) : Stream α :=
  { source := s.source, transform := some (compose s.transform t), finite := s.finite }

/-- Model of Stream.Filter (stream.go). -/
def Filter {α : Type u} (s : Stream α) (f : α → Bool) : Stream α :=
  s.Transform (filterT f)

/-- Model of Stream.FilterNot: Filter with the negated predicate
(stream.go). -/
def FilterNot {α : Type u} (s : Stream α) (f : α → Bool) : Stream α :=
  s.Filter (fun element => !f element)

/-- Model of Stream.Map (stream.go). -/
def Map {α : Type u} (s : Stream α) (f : α → α) : Stream α :=
  s.Transform (mapT f)

/-- Model of Stream.Peek: the observer is dropped by the denotation
(stream.go). -/
def Peek {α : Type u} (s : Stream α) : Stream α :=
  s.Transform peekT

/-- Model of Stream.Iter: thread the source through the composed
transform, if any (stream.go). -/
def Iter {α : Type u} (s : Stream α) : List α :=
  match s.transform with
  | none => s.source
  | some t => t s.source

end Stream

/-- Model of gostream.Finisher: a source Stream plus the composed
whole-sequence transform (stream.go). -/
structure Finisher (α : Type u) : Type u where
  source : Stream α
  transform : Option (List α → List α)

/-- Model of Stream.AndThen: wrap the Stream as a Finisher with an empty
whole-sequence transform (stream.go). -/
def Stream.AndThen {α : Type u} (s : Stream α) : Finisher α :=
  { source := s, transform := none }

namespace Finisher

/-- Model of Finisher.Transform (stream.go). -/
def Transform {α : Type u} (fin : Finisher α) (f : List α → List α) : Finisher α :=
  { source := fin.source, transform := some (compose fin.transform f) }

/-- Model of Finisher.Filter (stream.go). -/
def Filter {α : Type u} (fin : Finisher α) (f : α → Bool) : Finisher α :=
  fin.Transform (filterT f)

/-- Model of Finisher.Distinct: Filter with the stateful seen-set
predicate, denoted by `distinctFrom` starting from the empty
`alreadyRead` set (stream.go). -/
def Distinct {α : Type u} [DecidableEq α] (fin : Finisher α) : Finisher α :=
  fin.Transform (distinctFrom [])

/-- Model of Finisher.Duplicates (stream.go). -/
def Duplicates {α : Type u} [DecidableEq α] (fin : Finisher α) : Finisher α :=
  fin.Transform (duplicatesFrom [])

/-- Model of Finisher.Skip (stream.go).  The Go parameter is an `int`;
the claims concern the non-negative case, modelled by `Nat` (for a
non-positive argument the skip loop body does not run). -/
def Skip {α : Type u} (fin : Finisher α) (n : Nat) : Finisher α :=
  fin.Transform (skipT n)

/-- Model of Finisher.Limit (stream.go); the Go parameter is a `uint`. -/
def Limit {α : Type u} (fin : Finisher α) (n : Nat) : Finisher α :=
  fin.Transform (limitT n)

/-- Model of Finisher.Sorted: buffer the whole upstream and replay it
sorted by the provided comparator (stream.go). -/
def Sorted {α : Type u} (fin : Finisher α) (less : α → α → Bool) : Finisher α :=
  fin.Transform (sortB less)

/-- Model of Finisher.ReverseSorted: delegates to Sorted with the
negated comparator, exactly as the Go source does (stream.go). -/
def ReverseSorted {α : Type u} (fin : Finisher α) (less : α → α → Bool) : Finisher α :=
  fin.Sorted (fun element1 element2 => !(less element1 element2))

/-- Model of Finisher.Iter: thread the Stream output through the
composed whole-sequence transform, if any (stream.go). -/
def Iter {α : Type u} (fin : Finisher α) : List α :=
  match fin.transform with
  | none => fin.source.Iter
  | some t => t fin.source.Iter

/-- Model of Finisher.ToSlice: append every produced element to a slice
(stream.go). -/
def ToSlice {α : Type u} (fin : Finisher α) : List α :=
  fin.Iter

/-- Loop body of Finisher.Count: increment once per produced element
(stream.go). -/
def countLoop {α : Type u} : List α → Nat
  | [] => 0
  | _ :: xs => countLoop xs + 1

/-- Model of Finisher.Count (stream.go). -/
def Count {α : Type u} (fin : Finisher α) : Nat :=
  countLoop fin.Iter

/-- Loop body of Finisher.Reduce: `result = f(result, it.Value())` for
each produced element (stream.go). -/
def reduceLoop {α : Type u} {β : Type v} (f : β → α → β) (result : β) : List α → β
  | [] => result
  | x :: xs => reduceLoop f (f result x) xs

/-- Model of Finisher.Reduce: left fold of the accumulator function over
the produced elements, starting from the identity (stream.go). -/
def Reduce {α : Type u} {β : Type v} (fin : Finisher α) (identity : β)
    (f : β → α → β) : β :=
  reduceLoop f identity fin.Iter

/-- Model of Finisher.FindFirst (stream.go).  A Go `interface{}` value
may be nil, modelled by element type `Option β` with nil = `none`; `val`
starts as nil and is set to the first produced element if there is one,
and `gooptional.Of(val)` is the empty Optional exactly when `val` is
nil.  So the result is the head element when the pipeline produces one
(which may itself be nil), and nil otherwise. -/
def FindFirst {β : Type u} (fin : Finisher (Option β)) : Option β :=
  match fin.Iter with
  | [] => none
  | x :: _ => x

/-- Model of Finisher.ParallelToStream: doParallel on the triple
(source stream's source, source stream's per-element transform, this
finisher's whole-sequence transform), wrapped by Of (stream.go). -/
def ParallelToStream {α : Type u} (fin : Finisher α) (numItems : Nat)
    (flag : ParallelFlags) : Stream α :=
  Of (doParallel fin.source.source fin.source.transform fin.transform numItems flag)

/-- Model of Finisher.ParallelToSliceOf, up to the element-type
conversion done by reflection: the same doParallel call as
ParallelToStream, returned as a slice (stream.go). -/
def ParallelToSliceOf {α : Type u} (fin : Finisher α) (numItems : Nat)
    (flag : ParallelFlags) : List α :=
  doParallel fin.source.source fin.source.transform fin.transform numItems flag

end Finisher

/-- Model of Stream.ToSlice: delegates through AndThen to
Finisher.ToSlice (stream.go). -/
def Stream.ToSlice {α : Type u} (s : Stream α) : List α :=
  s.AndThen.ToSlice

/-!
Stateful model of the Finisher.ParallelToSlice code path.

Unlike ParallelToStream and ParallelToSliceOf, the Go ParallelToSlice
calls `doParallel(fin.source.Iter(), fin.transform, fin.transform, ...)`:
the source already has the per-element transform applied, and the
finisher's whole-sequence transform is passed both as the per-partition
transform and as the finisher.  The whole-sequence closures carry state
shared between their invocations (for Distinct, the `alreadyRead` map
created once when Distinct() was called), so the second application sees
the state left behind by the first.  The model below threads that state
explicitly for the Distinct pipeline; the counterexample uses a single
partition, for which Go's goroutine scheduling plays no role.
-/

/-- One invocation of the Distinct filter closure on an input row: the
`alreadyRead` set is threaded in and out (stream.go, Finisher.Distinct). -/
def distinctStep {α : Type u} [DecidableEq α] (seen : List α) :
    List α → List α × List α
  | [] => (seen, [])
  | x :: xs =>
    if x ∈ seen then distinctStep seen xs
    else
      let r := distinctStep (x :: seen) xs
      (r.1, x :: r.2)

/-- Apply a state-threading transform to each row in row order,
propagating the shared closure state from one invocation to the next. -/
def mapRowsWithState {α : Type u} [DecidableEq α]
    (f : List α → List α → List α × List α) (seen : List α) :
    List (List α) → List α × List (List α)
  | [] => (seen, [])
  | r :: rs =>
    let p := f seen r
    let q := mapRowsWithState f p.1 rs
    (q.1, p.2 :: q.2)

/-- Model of Finisher.ParallelToSlice for a pipeline
`Of(src).AndThen().Distinct()`: doParallel receives the materialized
source (no per-element transform on the Stream, so `fin.source.Iter()`
produces `src` itself) and the Distinct closure as BOTH the transform
and the finisher.  The transform is applied to every partition (rows in
index order; the shared `alreadyRead` state makes the row applications
interact, faithfully so for the single-row instance used below), the
rows are flattened, and then the same closure — with its state already
populated — is applied once more as the finisher. -/
def ParallelToSliceOnDistinct {α : Type u} [DecidableEq α] (src : List α)
    (numItems : Nat) (flag : ParallelFlags) : List α :=
  let n := if numItems > 0 then numItems else DefaultNumberOfParallelItems
  let splitData :=
    if flag = NumberOfGoroutines then splitIntoColumns n src
    else splitIntoRows n src
  let p := mapRowsWithState distinctStep [] splitData
  let flatData := flattenArraySlice p.2
  (distinctStep p.1 flatData).2

/-!
The pull layer: sources as per-pull answers.
-/

/-- The accumulator of the Iterate closure after k updates:
`iterAcc f seed 0 = seed` and each `next()` call replaces the
accumulator by `f` of it (stream.go, Iterate). -/
def iterAcc {α : Type u} (f : α → α) (seed : α) : Nat → α
  | 0 => seed
  | k + 1 => f (iterAcc f seed k)

/-- Pull-layer source built by the Iterate constructor: the k-th
`next()` call (0-based) updates the accumulator and answers
`(accumulator, true)` — it never reports exhaustion (stream.go). -/
def iterateSrc {α : Type u} (f : α → α) (seed : α) : Nat → Option α :=
  fun k => some (iterAcc f seed (k + 1))

/-- Pull-layer denotation of the Finisher.Limit closure: the k-th
downstream pull answers the k-th upstream pull while fewer than n
elements have been read, and reports exhaustion — without touching the
upstream — once the count reaches n (stream.go, Finisher.Limit). -/
def limitSrc {α : Type u} (n : Nat) (src : Nat → Option α) : Nat → Option α :=
  fun k => if k < n then src k else none

/-- Consume a pull-layer source from pull index k with the given amount
of fuel, collecting elements until the source reports exhaustion; fuel
running out means the consuming loop is still going. -/
def pullToListFrom {α : Type u} (src : Nat → Option α) (k : Nat) :
    Nat → List α
  | 0 => []
  | fuel + 1 =>
    match src k with
    | none => []
    | some v => v :: pullToListFrom src (k + 1) fuel

/-- Fuel-indexed run of the Finisher.Count loop `for it.Next() { count++ }`
over a pull-layer source: `some c` when the loop finished with count c
within the fuel bound, `none` when the fuel ran out with the loop still
running (stream.go, Finisher.Count). -/
def countPullFrom {α : Type u} (src : Nat → Option α) (k : Nat) :
    Nat → Option Nat
  | 0 => none
  | fuel + 1 =>
    match src k with
    | none => some 0
    | some _ => (countPullFrom src (k + 1) fuel).map (· + 1)

/-- Pull-layer model of a gostream.Stream whose source need not be
finite: the per-pull source answers plus the finite flag set by the
constructor (stream.go). -/
structure PullStream (α : Type u) : Type u where
  source : Nat → Option α
  finite : Bool

/-- Pull-layer model of the Iterate constructor: `construct(..., false)`
— the finite flag is false (stream.go, Iterate). -/
def IterateP {α : Type u} (f : α → α) (seed : α) : PullStream α :=
  { source := iterateSrc f seed, finite := false }

/-- Pull-layer run of Finisher.Count on a Finisher built directly from a
Stream (AndThen, no whole-sequence transform): the loop iterates the
source unconditionally — no code path consults the finite flag or raises
an unbounded-pipeline error (stream.go, Finisher.Count). -/
def PullStream.CountAttempt {α : Type u} (s : PullStream α) (fuel : Nat) :
    Option Nat :=
  countPullFrom s.source 0 fuel

/-!
Helper lemmas: plumbing of the composed transforms, and identification
of the loop denotations with the standard list functions.
-/

theorem compose_apply {α : Type u} (f1 : Option (List α → List α))
    (f2 : List α → List α) (l : List α) :
    compose f1 f2 l = f2 (match f1 with | none => l | some g => g l) := by
  cases f1 <;> rfl

theorem Stream_Transform_Iter {α : Type u} (s : Stream α) (t : List α → List α) :
    (s.Transform t).Iter = t s.Iter := by
  cases s with
  | mk src tr fin => cases tr <;> rfl

theorem Finisher_Transform_Iter {α : Type u} (fin : Finisher α)
    (t : List α → List α) : (fin.Transform t).Iter = t fin.Iter := by
  cases fin with
  | mk src tr => cases tr <;> rfl

theorem Stream.AndThen_Iter {α : Type u} (s : Stream α) :
    s.AndThen.Iter = s.Iter := rfl

theorem Of_Iter {α : Type u} (l : List α) : (Of l).Iter = l := rfl

theorem Of_ToSlice {α : Type u} (l : List α) : (Of l).ToSlice = l := rfl

theorem filterT_eq_filter {α : Type u} (f : α → Bool) (l : List α) :
    filterT f l = l.filter f := by
  induction l with
  | nil => rfl
  | cons x xs ih =>
    by_cases h : f x <;> simp [filterT, List.filter, h, ih]

theorem mapT_eq_map {α : Type u} (f : α → α) (l : List α) :
    mapT f l = l.map f := by
  induction l with
  | nil => rfl
  | cons x xs ih => simp [mapT, ih]

theorem peekT_eq_self {α : Type u} (l : List α) : peekT l = l := by
  induction l with
  | nil => rfl
  | cons x xs ih => simp [peekT, ih]

theorem skipT_eq_drop {α : Type u} (n : Nat) (l : List α) :
    skipT n l = l.drop n := by
  induction n generalizing l with
  | zero => cases l <;> rfl
  | succ n ih => cases l with
    | nil => rfl
    | cons x xs => simpa [skipT] using ih xs

theorem limitT_eq_take {α : Type u} (n : Nat) (l : List α) :
    limitT n l = l.take n := by
  induction n generalizing l with
  | zero => cases l <;> rfl
  | succ n ih => cases l with
    | nil => rfl
    | cons x xs => simp [limitT, ih xs]

theorem countLoop_eq_length {α : Type u} (l : List α) :
    Finisher.countLoop l = l.length := by
  induction l with
  | nil => rfl
  | cons x xs ih => simp [Finisher.countLoop, ih]

theorem reduceLoop_eq_foldl {α : Type u} {β : Type v} (f : β → α → β)
    (init : β) (l : List α) :
    Finisher.reduceLoop f init l = l.foldl f init := by
  induction l generalizing init with
  | nil => rfl
  | cons x xs ih => simp [Finisher.reduceLoop, ih, List.foldl]

theorem flattenArraySlice_append {α : Type u} (r : List α) (rs : List (List α)) :
    flattenArraySlice (r :: rs) = r ++ flattenArraySlice rs := rfl

theorem flattenArraySlice_chunksOf {α : Type u} (sz : Nat) (l : List α) :
    flattenArraySlice (chunksOf sz l) = l := by
  match l with
  | [] => rw [chunksOf]; rfl
  | x :: xs =>
    rw [chunksOf, flattenArraySlice_append,
      flattenArraySlice_chunksOf sz (xs.drop (sz - 1))]
    simp [List.take_append_drop]
termination_by l.length
decreasing_by
  simp only [List.length_cons]
  exact Nat.lt_succ_of_le (List.length_drop _ _ ▸ Nat.sub_le _ _)

theorem flattenArraySlice_splitIntoRows {α : Type u} (n : Nat) (l : List α) :
    flattenArraySlice (splitIntoRows n l) = l :=
  flattenArraySlice_chunksOf n l

theorem flattenArraySlice_splitIntoColumns {α : Type u} (n : Nat) (l : List α) :
    flattenArraySlice (splitIntoColumns n l) = l :=
  flattenArraySlice_chunksOf _ l

/-!
Per-element transforms.  A transform is elementwise when its effect on a
concatenation is the concatenation of its effects — the formal content
of "an operation whose effect on one element never depends on any other
element".  The Stream operations Filter, FilterNot, Map and Peek all
install elementwise transforms, and composition preserves the property;
this is what lets doParallel apply the Stream transform per partition.
-/

/-- A transform distributes over concatenation of its input sequence. -/
def Elementwise {α : Type u} (t : List α → List α) : Prop :=
  ∀ l1 l2 : List α, t (l1 ++ l2) = t l1 ++ t l2

theorem Elementwise.map_nil {α : Type u} {t : List α → List α}
    (ht : Elementwise t) : t [] = [] := by
  have h := ht [] []
  simp only [List.append_nil] at h
  have h2 := congrArg List.length h
  simp only [List.length_append] at h2
  exact List.eq_nil_of_length_eq_zero (by omega)

theorem Elementwise.flatten {α : Type u} {t : List α → List α}
    (ht : Elementwise t) (rows : List (List α)) :
    flattenArraySlice (rows.map t) = t (flattenArraySlice rows) := by
  induction rows with
  | nil => simp [flattenArraySlice, ht.map_nil]
  | cons r rs ih => simp [flattenArraySlice, ht r (flattenArraySlice rs), ih]

theorem elementwise_filterT {α : Type u} (f : α → Bool) :
    Elementwise (filterT (α := α) f) := by
  intro l1 l2
  simp [filterT_eq_filter, List.filter_append]

theorem elementwise_mapT {α : Type u} (f : α → α) :
    Elementwise (mapT f) := by
  intro l1 l2
  simp [mapT_eq_map]

theorem elementwise_peekT {α : Type u} : Elementwise (peekT (α := α)) := by
  intro l1 l2
  simp [peekT_eq_self]

theorem elementwise_compose {α : Type u} {f1 : Option (List α → List α)}
    {f2 : List α → List α}
    (h1 : ∀ g, f1 = some g → Elementwise g) (h2 : Elementwise f2) :
    Elementwise (compose f1 f2) := by
  cases f1 with
  | none => exact h2
  | some g =>
    intro l1 l2
    have hg := h1 g rfl
    show f2 (g (l1 ++ l2)) = f2 (g l1) ++ f2 (g l2)
    rw [hg l1 l2, h2 (g l1) (g l2)]

/-- The composed per-element transform of a Stream, when present, is
elementwise.  This invariant holds for every Stream built from the
public constructors and chaining operations. -/
def Stream.GoodTransform {α : Type u} (s : Stream α) : Prop :=
  ∀ t, s.transform = some t → Elementwise t

theorem construct_goodTransform {α : Type u} (l : List α) (b : Bool) :
    (construct l b).GoodTransform := by
  intro t ht
  simp [construct] at ht

theorem Of_goodTransform {α : Type u} (l : List α) : (Of l).GoodTransform :=
  construct_goodTransform l true

theorem Stream.GoodTransform.transform {α : Type u} {s : Stream α}
    (hs : s.GoodTransform) {t : List α → List α} (ht : Elementwise t) :
    (s.Transform t).GoodTransform := by
  intro u hu
  simp only [Stream.Transform] at hu
  cases hu
  exact elementwise_compose hs ht

theorem Stream.GoodTransform.filter {α : Type u} {s : Stream α}
    (hs : s.GoodTransform) (f : α → Bool) : (s.Filter f).GoodTransform :=
  hs.transform (elementwise_filterT f)

theorem Stream.GoodTransform.filterNot {α : Type u} {s : Stream α}
    (hs : s.GoodTransform) (f : α → Bool) : (s.FilterNot f).GoodTransform :=
  hs.filter _

theorem Stream.GoodTransform.map {α : Type u} {s : Stream α}
    (hs : s.GoodTransform) (f : α → α) : (s.Map f).GoodTransform :=
  hs.transform (elementwise_mapT f)

theorem Stream.GoodTransform.peek {α : Type u} {s : Stream α}
    (hs : s.GoodTransform) : s.Peek.GoodTransform :=
  hs.transform elementwise_peekT

/-- Central parallel/sequential agreement: when the per-element
transform is elementwise (or absent), doParallel on the
(source, per-element transform, whole-sequence transform) triple
computes exactly what the sequential Finisher.Iter computes, for every
numItems and both flag modes. -/
theorem doParallel_eq_Iter {α : Type u} (fin : Finisher α)
    (numItems : Nat) (flag : ParallelFlags)
    (hs : fin.source.GoodTransform) :
    doParallel fin.source.source fin.source.transform fin.transform
      numItems flag = fin.Iter := by
  have hflat :
      (match fin.source.transform with
        | none => fin.source.source
        | some t =>
          flattenArraySlice
            (((if flag = NumberOfGoroutines then
                splitIntoColumns
                  (if numItems > 0 then numItems else DefaultNumberOfParallelItems)
                  fin.source.source
              else
                splitIntoRows
                  (if numItems > 0 then numItems else DefaultNumberOfParallelItems)
                  fin.source.source)).map t)) = fin.source.Iter := by
    cases htr : fin.source.transform with
    | none => simp [Stream.Iter, htr]
    | some t =>
      have ht : Elementwise t := hs t htr
      simp only [Stream.Iter, htr]
      rw [ht.flatten]
      by_cases hf : flag = NumberOfGoroutines <;>
        simp [hf, flattenArraySlice_splitIntoColumns, flattenArraySlice_splitIntoRows]
  cases hfin : fin.transform with
  | none =>
    simpa [doParallel, Finisher.Iter, hfin] using hflat
  | some f =>
    simp only [doParallel, Finisher.Iter, hfin]
    exact congrArg f hflat

/-!
Theory of the sort model.  The output of `sortB c` is a permutation of
the input, pairwise-ordered by any relation R compatible with the
comparator c; two comparators compatible with the same antisymmetric R
therefore produce identical output.
-/

theorem insertB_perm {α : Type u} (c : α → α → Bool) (x : α) (l : List α) :
    List.Perm (insertB c x l) (x :: l) := by
  induction l with
  | nil => exact List.Perm.refl _
  | cons y ys ih =>
    by_cases h : c x y
    · simp [insertB, h]
    · simp only [insertB, h, if_neg, Bool.false_eq_true, ite_false]
      exact (ih.cons y).trans (List.Perm.swap x y ys)

theorem sortB_perm {α : Type u} (c : α → α → Bool) (l : List α) :
    List.Perm (sortB c l) l := by
  induction l with
  | nil => exact List.Perm.refl _
  | cons x xs ih => exact (insertB_perm c x (sortB c xs)).trans (ih.cons x)

theorem mem_insertB {α : Type u} {c : α → α → Bool} {x a : α} {l : List α} :
    a ∈ insertB c x l ↔ a = x ∨ a ∈ l := by
  rw [(insertB_perm c x l).mem_iff, List.mem_cons]

theorem pairwise_insertB {α : Type u} {c : α → α → Bool} {R : α → α → Prop}
    (htrans : Transitive R)
    (H1 : ∀ a b, c a b = true → R a b)
    (H2 : ∀ a b, c a b = false → R b a)
    {x : α} {l : List α} (hl : List.Pairwise R l) :
    List.Pairwise R (insertB c x l) := by
  induction l with
  | nil => simp [insertB]
  | cons y ys ih =>
    rcases List.pairwise_cons.mp hl with ⟨hy, hys⟩
    by_cases h : c x y
    · simp only [insertB, h, ite_true]
      refine List.pairwise_cons.mpr ⟨?_, hl⟩
      intro z hz
      rcases List.mem_cons.mp hz with rfl | hz
      · exact H1 x z h
      · exact htrans (H1 x y h) (hy z hz)
    · simp only [insertB, h, Bool.false_eq_true, ite_false]
      refine List.pairwise_cons.mpr ⟨?_, ih hys⟩
      intro z hz
      rcases mem_insertB.mp hz with rfl | hz
      · exact H2 z y (by simpa using h)
      · exact hy z hz

theorem pairwise_sortB {α : Type u} {c : α → α → Bool} {R : α → α → Prop}
    (htrans : Transitive R)
    (H1 : ∀ a b, c a b = true → R a b)
    (H2 : ∀ a b, c a b = false → R b a)
    (l : List α) : List.Pairwise R (sortB c l) := by
  induction l with
  | nil => simp [sortB]
  | cons x xs ih => exact pairwise_insertB htrans H1 H2 ih

theorem sortB_eq_sortB {α : Type u} {c1 c2 : α → α → Bool} {R : α → α → Prop}
    (htrans : Transitive R)
    (hanti : ∀ a b, R a b → R b a → a = b)
    (H11 : ∀ a b, c1 a b = true → R a b) (H21 : ∀ a b, c1 a b = false → R b a)
    (H12 : ∀ a b, c2 a b = true → R a b) (H22 : ∀ a b, c2 a b = false → R b a)
    (l : List α) : sortB c1 l = sortB c2 l := by
  haveI : IsAntisymm α R := ⟨hanti⟩
  exact List.eq_of_perm_of_sorted
    ((sortB_perm c1 l).trans (sortB_perm c2 l).symm)
    (pairwise_sortB htrans H11 H21 l)
    (pairwise_sortB htrans H12 H22 l)

/-!
Counting theory of the Distinct / Duplicates filters.
-/

theorem count_distinctFrom {α : Type u} [DecidableEq α] (x : α) :
    ∀ (l seen : List α),
      (distinctFrom seen l).count x = if x ∈ l ∧ x ∉ seen then 1 else 0 := by
  intro l
  induction l with
  | nil => intro seen; simp [distinctFrom]
  | cons y ys ih =>
    intro seen
    by_cases hy : y ∈ seen
    · rw [distinctFrom, if_pos hy, ih seen]
      by_cases hxy : x = y
      · subst hxy
        simp [hy]
      · simp [List.mem_cons, hxy]
    · rw [distinctFrom, if_neg hy]
      by_cases hxy : x = y
      · subst hxy
        simp [List.count_cons, ih (x :: seen), hy]
      · simp [List.count_cons, ih (y :: seen), hxy, List.mem_cons]

theorem count_distinctFrom_add_duplicatesFrom {α : Type u} [DecidableEq α]
    (x : α) : ∀ (l seen : List α),
      (distinctFrom seen l).count x + (duplicatesFrom seen l).count x
        = l.count x := by
  intro l
  induction l with
  | nil => intro seen; simp [distinctFrom, duplicatesFrom]
  | cons y ys ih =>
    intro seen
    by_cases hy : y ∈ seen
    · rw [distinctFrom, if_pos hy, duplicatesFrom, if_pos hy]
      simp only [List.count_cons]
      have := ih seen
      omega
    · rw [distinctFrom, if_neg hy, duplicatesFrom, if_neg hy]
      simp only [List.count_cons]
      have := ih (y :: seen)
      omega

/-!
Pull-layer lemmas: Iterate, Limit and the Count loop.
-/

theorem iterAcc_eq_iterate {α : Type u} (f : α → α) (seed : α) (k : Nat) :
    iterAcc f seed k = f^[k] seed := by
  induction k with
  | zero => rfl
  | succ k ih => rw [iterAcc, ih, Function.iterate_succ_apply']

theorem pullToListFrom_iterateSrc {α : Type u} (f : α → α) (seed : α) :
    ∀ (fuel k : Nat),
      pullToListFrom (iterateSrc f seed) k fuel
        = (List.range fuel).map (fun j => iterAcc f seed (k + j + 1)) := by
  intro fuel
  induction fuel with
  | zero => intro k; rfl
  | succ fuel ih =>
    intro k
    rw [pullToListFrom]
    show iterAcc f seed (k + 1) :: pullToListFrom (iterateSrc f seed) (k + 1) fuel
      = _
    rw [ih (k + 1), List.range_succ_eq_map, List.map_cons, List.map_map]
    refine congrArg₂ _ (by simp) (List.map_congr_left ?_)
    intro j _
    show iterAcc f seed (k + 1 + j + 1) = iterAcc f seed (k + (j + 1) + 1)
    congr 1
    omega

theorem length_pullToListFrom_limitSrc {α : Type u} (n : Nat)
    (src : Nat → Option α) :
    ∀ (fuel k : Nat),
      (pullToListFrom (limitSrc n src) k fuel).length ≤ n - k := by
  intro fuel
  induction fuel with
  | zero => intro k; simp [pullToListFrom]
  | succ fuel ih =>
    intro k
    rw [pullToListFrom]
    by_cases hk : k < n
    · cases hsrc : src k with
      | none => simp [limitSrc, hsrc]
      | some v =>
        simp only [limitSrc, if_pos hk, hsrc, List.length_cons]
        have := ih (k + 1)
        omega
    · simp [limitSrc, hk]

theorem limitSrc_congr {α : Type u} (n : Nat) (src src2 : Nat → Option α)
    (h : ∀ k, k < n → src k = src2 k) : limitSrc n src = limitSrc n src2 := by
  funext k
  by_cases hk : k < n
  · simp [limitSrc, hk, h k hk]
  · simp [limitSrc, hk]

theorem pullToListFrom_limitSrc_iterateSrc {α : Type u} (n : Nat)
    (f : α → α) (seed : α) :
    ∀ (fuel k : Nat), n - k ≤ fuel →
      pullToListFrom (limitSrc n (iterateSrc f seed)) k fuel
        = (List.range (n - k)).map (fun j => iterAcc f seed (k + j + 1)) := by
  intro fuel
  induction fuel with
  | zero =>
    intro k hk
    have : n - k = 0 := Nat.le_zero.mp hk
    simp [pullToListFrom, this]
  | succ fuel ih =>
    intro k hk
    by_cases hkn : k < n
    · rw [pullToListFrom]
      simp only [limitSrc, if_pos hkn, iterateSrc]
      rw [ih (k + 1) (by omega)]
      have hnk : n - k = (n - (k + 1)) + 1 := by omega
      rw [hnk, List.range_succ_eq_map, List.map_cons, List.map_map]
      refine congrArg₂ _ (by simp) (List.map_congr_left ?_)
      intro j _
      show iterAcc f seed (k + 1 + j + 1) = iterAcc f seed (k + (j + 1) + 1)
      congr 1
      omega
    · rw [pullToListFrom]
      have h0 : n - k = 0 := by omega
      simp [limitSrc, hkn, h0]

theorem countPullFrom_iterateSrc {α : Type u} (f : α → α) (seed : α) :
    ∀ (fuel k : Nat), countPullFrom (iterateSrc f seed) k fuel = none := by
  intro fuel
  induction fuel with
  | zero => intro k; rfl
  | succ fuel ih =>
    intro k
    rw [countPullFrom]
    show (countPullFrom (iterateSrc f seed) (k + 1) fuel).map (· + 1) = none
    rw [ih (k + 1)]
    rfl

/-!
Claim theorems.
-/

/-- C4: for every finite sequence l and all non-negative k and m,
Skip(k) then Limit(m) on the Finisher yields exactly
min(m, max(0, L-k)) elements — the contiguous run of the original
sequence starting at position k, in original order (truncated
subtraction makes `l.length - k` the max(0, L-k) of the claim). -/
theorem c4_skip_limit {α : Type u} (l : List α) (k m : Nat) :
    ((((Of l).AndThen.Skip k).Limit m).ToSlice) = (l.drop k).take m
    ∧ ((((Of l).AndThen.Skip k).Limit m).ToSlice).length = min m (l.length - k)
    ∧ (∀ i, i < min m (l.length - k) →
        ((((Of l).AndThen.Skip k).Limit m).ToSlice)[i]? = l[k + i]?) := by
  have hts : ((((Of l).AndThen.Skip k).Limit m).ToSlice) = limitT m (skipT k l) := rfl
  have h1 : ((((Of l).AndThen.Skip k).Limit m).ToSlice) = (l.drop k).take m := by
    rw [hts, limitT_eq_take, skipT_eq_drop]
  refine ⟨h1, ?_, ?_⟩
  · rw [h1, List.length_take, List.length_drop]
  · intro i hi
    rw [h1, List.getElem?_take, if_pos (lt_of_lt_of_le hi (Nat.min_le_left _ _)),
      List.getElem?_drop]

/-- Witness for C4 at l = [10,20,30,40], k = 1, m = 2, i = 0: the
hypothesis 0 < min 2 (L-1) holds and the element at output position 0
is the source element at position 1. -/
theorem c4_skip_limit_witness :
    0 < min 2 ([(10:Int), 20, 30, 40].length - 1)
    ∧ ((((Of [(10:Int), 20, 30, 40]).AndThen.Skip 1).Limit 2).ToSlice)[0]?
        = [(10:Int), 20, 30, 40][1 + 0]? :=
  ⟨by decide, (c4_skip_limit [(10:Int), 20, 30, 40] 1 2).2.2 0 (by decide)⟩

/-- C6: for every finite input sequence, Distinct() and Duplicates()
over that sequence partition its multiset exactly: for every value x,
the occurrences of x in the two outputs add up to the occurrences of x
in the input, and Distinct keeps exactly one occurrence of each value
present (the first), so all later occurrences are exactly the
Duplicates output. -/
theorem c6_distinct_duplicates_partition {α : Type u} [DecidableEq α]
    (l : List α) (x : α) :
    (((Of l).AndThen.Distinct.ToSlice).count x
        + ((Of l).AndThen.Duplicates.ToSlice).count x = l.count x)
    ∧ ((Of l).AndThen.Distinct.ToSlice).count x = (if x ∈ l then 1 else 0) := by
  have h1 : (Of l).AndThen.Distinct.ToSlice = distinctFrom [] l := rfl
  have h2 : (Of l).AndThen.Duplicates.ToSlice = duplicatesFrom [] l := rfl
  rw [h1, h2]
  refine ⟨count_distinctFrom_add_duplicatesFrom x l [], ?_⟩
  rw [count_distinctFrom]
  simp

/-- C7: Reduce(identity, f) on an empty sequence returns the identity
unchanged, and on any sequence returns the left fold of f over the
elements in encounter order; in particular on [a, b, c] it returns
f(f(f(identity, a), b), c). -/
theorem c7_reduce_left_fold {α : Type u} {β : Type v} (identity : β)
    (f : β → α → β) :
    ((Of ([] : List α)).AndThen.Reduce identity f = identity)
    ∧ (∀ l : List α, (Of l).AndThen.Reduce identity f = l.foldl f identity)
    ∧ (∀ a b c : α,
        (Of [a, b, c]).AndThen.Reduce identity f = f (f (f identity a) b) c) := by
  refine ⟨rfl, ?_, fun a b c => rfl⟩
  intro l
  exact reduceLoop_eq_foldl f identity l

/-- C8 counterexample: on input [1,3,1,2,9,7,2,4,7,5,8,6,8], chaining
Filter(x<5) then Map(x*2) does NOT yield the claimed [2,6,2,4,8,4,10,12]
(that list would require keeping 5 and 6, which fail x<5). -/
theorem c8_filter_map_claim_false :
    ¬ ((((Of [(1:Int), 3, 1, 2, 9, 7, 2, 4, 7, 5, 8, 6, 8]).Filter
        (fun x => decide (x < 5))).Map (fun x => x * 2)).ToSlice
      = [2, 6, 2, 4, 8, 4, 10, 12]) := by
  decide

/-- C8 (amended): on the concrete input [1,3,1,2,9,7,2,4,7,5,8,6,8],
chaining Filter(x<5) then Map(x*2) and materializing the Stream yields
exactly [2,6,2,4,4,8] in that order (the elements below 5 are
1,3,1,2,2,4 in encounter order, each doubled; the Distinct-then-sorted
example in the stream.go doc comment, yielding [2,4,6,8], agrees). -/
theorem c8_filter_map_concrete :
    (((Of [(1:Int), 3, 1, 2, 9, 7, 2, 4, 7, 5, 8, 6, 8]).Filter
        (fun x => decide (x < 5))).Map (fun x => x * 2)).ToSlice
      = [2, 6, 2, 4, 4, 8] := by
  decide

/-- C3: for every less-than predicate lt — a strict total order given as
a boolean comparator: irreflexive, transitive and trichotomous — and
every pipeline, ReverseSorted(lt) yields exactly the same sequence as
Sorted with the predicate's operands swapped.  (In the source
ReverseSorted delegates to Sorted with the negated comparator, not a
separate reverse pass; for a strict total order, negation and operand
swap sort identically.) -/
theorem c3_reverse_sorted_swap {α : Type u} (fin : Finisher α)
    (lt : α → α → Bool)
    (hirr : ∀ a, lt a a = false)
    (htr : ∀ a b c, lt a b = true → lt b c = true → lt a c = true)
    (htri : ∀ a b : α, a ≠ b → lt a b = true ∨ lt b a = true) :
    (fin.ReverseSorted lt).ToSlice
      = (fin.Sorted (fun a b => lt b a)).ToSlice := by
  have hasym : ∀ a b, lt a b = true → lt b a = false := by
    intro a b hab
    cases hba : lt b a with
    | false => rfl
    | true => exact absurd (htr a b a hab hba) (by simp [hirr a])
  have h1 : (fin.ReverseSorted lt).ToSlice
      = sortB (fun a b => !(lt a b)) fin.Iter := by
    show (fin.Transform (sortB fun a b => !(lt a b))).Iter = _
    rw [Finisher_Transform_Iter]
  have h2 : (fin.Sorted (fun a b => lt b a)).ToSlice
      = sortB (fun a b => lt b a) fin.Iter := by
    show (fin.Transform (sortB fun a b => lt b a)).Iter = _
    rw [Finisher_Transform_Iter]
  rw [h1, h2]
  refine sortB_eq_sortB (R := fun a b => lt a b = false) ?_ ?_ ?_ ?_ ?_ ?_ fin.Iter
  · intro a b c hab hbc
    by_contra hac
    have hac2 : lt a c = true := by simpa using hac
    rcases Classical.em (a = b) with rfl | hne
    · exact absurd hac2 (by simp [hbc])
    · rcases htri a b hne with h | h
      · exact absurd h (by simp [hab])
      · exact absurd (htr b a c h hac2) (by simp [hbc])
  · intro a b hab hba
    by_contra hne
    rcases htri a b hne with h | h
    · exact absurd h (by simp [hab])
    · exact absurd h (by simp [hba])
  · intro a b h
    simpa using h
  · intro a b h
    exact hasym a b (by simpa using h)
  · intro a b h
    exact hasym b a h
  · intro a b h
    exact h

/-- Witness for C3 at the integer order and the pipeline
Of [3,1,2,2]: ReverseSorted(<) and Sorted with swapped operands produce
the same slice. -/
theorem c3_reverse_sorted_swap_witness :
    (((Of [(3:Int), 1, 2, 2]).AndThen).ReverseSorted
        (fun a b => decide (a < b))).ToSlice
      = (((Of [(3:Int), 1, 2, 2]).AndThen).Sorted
        (fun a b => decide (b < a))).ToSlice :=
  c3_reverse_sorted_swap _ (fun a b => decide (a < b))
    (fun a => by simp)
    (fun a b c hab hbc => by
      simp only [decide_eq_true_eq] at hab hbc ⊢
      omega)
    (fun a b h => by
      simp only [decide_eq_true_eq]
      omega)

/-- C9: there exists a non-exhausted pipeline — its source still holds
an element — on which FindFirst returns the empty Optional: mapping the
present element to nil makes FindFirst's result equal to its result on
a truly exhausted (empty) sequence. -/
theorem c9_findFirst_nil_ambiguity :
    ((Of [some (1:Int)]).Map (fun _ => none)).source ≠ []
    ∧ ((Of [some (1:Int)]).Map (fun _ => none)).AndThen.FindFirst = none
    ∧ (Of ([] : List (Option Int))).AndThen.FindFirst = none := by
  refine ⟨by decide, rfl, rfl⟩

/-- C10: the stream built by Iterate(seed, f) answers its k-th pull
(0-based) with f iterated k+1 times on the seed: the first element is
f(seed), collecting n elements (for any n) gives
[f(seed), f²(seed), ..., fⁿ(seed)], and no position holds the bare
seed (every yielded value is f iterated at least once). -/
theorem c10_iterate_elements {α : Type u} (f : α → α) (seed : α) :
    (iterateSrc f seed 0 = some (f seed))
    ∧ (∀ k, iterateSrc f seed k = some (f^[k + 1] seed))
    ∧ (∀ n, pullToListFrom (iterateSrc f seed) 0 n
        = (List.range n).map (fun k => f^[k + 1] seed)) := by
  refine ⟨rfl, ?_, ?_⟩
  · intro k
    rw [iterateSrc, iterAcc_eq_iterate]
  · intro n
    rw [pullToListFrom_iterateSrc f seed n 0]
    refine List.map_congr_left ?_
    intro j _
    rw [iterAcc_eq_iterate]
    simp

/-- C5: the Limit(n) closure yields at most n elements no matter the
fuel; it reports exhaustion at pull n without touching the upstream;
its output depends only on the first n upstream pulls (so at most n
elements are pulled from the upstream); and over the infinite Iterate
source, consuming it terminates with exactly the first n iterates once
the consuming loop has fuel n. -/
theorem c5_limit_bounds {α : Type u} :
    (∀ (n : Nat) (src : Nat → Option α) (fuel : Nat),
        (pullToListFrom (limitSrc n src) 0 fuel).length ≤ n)
    ∧ (∀ (n : Nat) (src : Nat → Option α), limitSrc n src n = none)
    ∧ (∀ (n : Nat) (src src2 : Nat → Option α), (∀ k, k < n → src k = src2 k) →
        limitSrc n src = limitSrc n src2)
    ∧ (∀ (n : Nat) (f : α → α) (seed : α) (fuel : Nat), n ≤ fuel →
        pullToListFrom (limitSrc n (iterateSrc f seed)) 0 fuel
          = (List.range n).map (fun k => f^[k + 1] seed)) := by
  refine ⟨?_, ?_, ?_, ?_⟩
  · intro n src fuel
    simpa using length_pullToListFrom_limitSrc n src fuel 0
  · intro n src
    simp [limitSrc]
  · intro n src src2 h
    exact limitSrc_congr n src src2 h
  · intro n f seed fuel hfuel
    rw [pullToListFrom_limitSrc_iterateSrc n f seed fuel 0 (by omega)]
    simp only [Nat.sub_zero]
    refine List.map_congr_left ?_
    intro j _
    rw [iterAcc_eq_iterate]
    simp

/-- Witness for C5 at n = 2 over the Iterate source stepping +1 from 0:
the agreement hypothesis against a truncated copy of the source holds,
Limit's output equals that of the truncated source, and with fuel 5 the
consumer collects exactly the first 2 iterates. -/
theorem c5_limit_bounds_witness :
    ((∀ k, k < 2 → iterateSrc (fun x => x + 1) (0 : Int) k
        = (fun k => if k < 2 then iterateSrc (fun x => x + 1) (0 : Int) k
            else none) k)
      ∧ limitSrc 2 (iterateSrc (fun x => x + 1) (0 : Int))
          = limitSrc 2 (fun k => if k < 2 then
              iterateSrc (fun x => x + 1) (0 : Int) k else none))
    ∧ (2 ≤ 5
      ∧ pullToListFrom (limitSrc 2 (iterateSrc (fun x => x + 1) (0 : Int))) 0 5
          = (List.range 2).map (fun k => (fun x => x + 1)^[k + 1] (0 : Int))) := by
  refine ⟨⟨fun k hk => by simp [hk], ?_⟩, by omega, ?_⟩
  · exact (c5_limit_bounds (α := Int)).2.2.1 2 _ _ (fun k hk => by simp [hk])
  · exact (c5_limit_bounds (α := Int)).2.2.2 2 _ 0 5 (by omega)

/-- C1: code-bug evidence.  The Iterate constructor sets the finite
flag to false, but no terminal consults it: Finisher.Count iterates
unconditionally, so on an Iterate-built Finisher with no Limit it pulls
the very first element successfully (no error is raised before any
pull) and the counting loop is still running after any amount of fuel —
the call hangs instead of failing with an unbounded-pipeline error. -/
theorem c1_count_unbounded_diverges {α : Type u} (f : α → α) (seed : α) :
    ((IterateP f seed).finite = false)
    ∧ ((IterateP f seed).source 0 = some (f seed))
    ∧ (∀ fuel, (IterateP f seed).CountAttempt fuel = none)
    ∧ (∀ fuel, (pullToListFrom (IterateP f seed).source 0 fuel).length = fuel) := by
  refine ⟨rfl, rfl, ?_, ?_⟩
  · intro fuel
    exact countPullFrom_iterateSrc f seed fuel 0
  · intro fuel
    show (pullToListFrom (iterateSrc f seed) 0 fuel).length = fuel
    rw [pullToListFrom_iterateSrc f seed fuel 0]
    simp

/-- C2: code-bug evidence plus the engine-level agreement.  First: for
every Finisher whose Stream carries an elementwise per-element transform
(the invariant established by Filter/FilterNot/Map/Peek), every
numItems and both flag modes, the correctly wired parallel terminals
ParallelToStream and ParallelToSliceOf produce exactly the sequential
result.  Second: ParallelToSlice, which wires doParallel with the
finisher transform in BOTH transform slots, disagrees with the
sequential terminal already on Of [1] with Distinct: it returns the
empty slice where ToSlice returns [1]. -/
theorem c2_parallel_vs_sequential {α : Type u} :
    (∀ (fin : Finisher α) (numItems : Nat) (flag : ParallelFlags),
        fin.source.GoodTransform →
        (fin.ParallelToStream numItems flag).ToSlice = fin.ToSlice
        ∧ fin.ParallelToSliceOf numItems flag = fin.ToSlice)
    ∧ ParallelToSliceOnDistinct [(1 : Int)] 1 NumberOfGoroutines = []
    ∧ (Of [(1 : Int)]).AndThen.Distinct.ToSlice = [1] := by
  refine ⟨?_, ?_, by decide⟩
  · intro fin numItems flag hgt
    have hd := doParallel_eq_Iter fin numItems flag hgt
    exact ⟨hd, hd⟩
  · simp [ParallelToSliceOnDistinct, splitIntoColumns, chunksOf,
      DefaultNumberOfParallelItems, mapRowsWithState, distinctStep,
      flattenArraySlice]

/-- Witness for C2 on the pipeline Of [1,2,3] with Map(x*2) then
Limit(2): the GoodTransform hypothesis is discharged by the
constructor/chaining lemmas and both correct parallel terminals agree
with the sequential slice. -/
theorem c2_parallel_vs_sequential_witness :
    ((Finisher.ParallelToStream
        ((((Of [(1:Int), 2, 3]).Map (fun x => x * 2)).AndThen.Limit 2))
        2 NumberOfGoroutines).ToSlice
      = ((((Of [(1:Int), 2, 3]).Map (fun x => x * 2)).AndThen.Limit 2)).ToSlice)
    ∧ (Finisher.ParallelToSliceOf
        ((((Of [(1:Int), 2, 3]).Map (fun x => x * 2)).AndThen.Limit 2))
        2 NumberOfGoroutines
      = ((((Of [(1:Int), 2, 3]).Map (fun x => x * 2)).AndThen.Limit 2)).ToSlice) := by
  exact c2_parallel_vs_sequential.1
    ((((Of [(1:Int), 2, 3]).Map (fun x => x * 2)).AndThen.Limit 2))
    2 NumberOfGoroutines ((Of_goodTransform _).map _)

end GoStream
